import Mathlib

/-!
# CRC-8 engines of `src/main.cpp`

Shallow embedding of the eight functions of `src/main.cpp` that make up the
CRC-8 core (bit reflector, the two sequential engines, the two table builders
and the two table-driven engines), followed by the theorems about them.

Modelling conventions.

* A `uint8_t` is a `Nat`; every place where C++ converts an `int` result back
  to `uint8_t` (an assignment or compound assignment after integer promotion)
  is an explicit `% 256`.  Assignments between two `uint8_t` values carry no
  `% 256`.
* A `vector<uint8_t>` is a `List Nat`; a byte sequence is a list whose
  members are all below 256.  A theorem stated for every list holds in
  particular for every byte sequence.
* `for (auto b : data)` is a left fold over the list; `for (int i = 0; i < 8;
  i++)` is a left fold over `List.range 8`.
* `table[k]` on a `vector` is unchecked in C++; the table engines return
  `Option Nat` and yield `none` when a lookup is out of bounds.
-/

namespace CRC8

open Polynomial

/-! ## The program -/

/-- Line 10: `constexpr uint8_t generator = 0b0110011011;` (the literal is
converted to `uint8_t`). -/
def generator : Nat := 0b0110011011 % 256

/-- Lines 13-22: `uint8_t Reflect8(uint8_t data)`. -/
def Reflect8 (data : Nat) : Nat :=
  (List.range 8).foldl
    (fun reflection i =>
      if data &&& (1 <<< i) ≠ 0 then (reflection ||| (1 <<< (7 - i))) % 256
      else reflection)
    0x00

/-- Lines 25-41: `uint8_t Compute_CRC8_Simple(const vector<uint8_t> &data)`. -/
def Compute_CRC8_Simple (data : List Nat) : Nat :=
  data.foldl
    (fun crc currByte =>
      let crc := (crc ^^^ currByte) % 256
      (List.range 8).foldl
        (fun crc _ =>
          if crc &&& 0x80 ≠ 0 then ((crc <<< 1) ^^^ generator) % 256
          else (crc <<< 1) % 256)
        crc)
    0

/-- Lines 44-60: `vector<uint8_t> GenerateCRCTable(uint8_t generator)`.
The parameter shadows the global constant, as in the source. -/
def GenerateCRCTable (generator : Nat) : List Nat :=
  (List.range 256).foldl
    (fun table dividend =>
      let currByte := dividend % 256
      let currByte := (List.range 8).foldl
        (fun currByte _ =>
          if currByte &&& 0x80 ≠ 0 then ((currByte <<< 1) ^^^ generator) % 256
          else (currByte <<< 1) % 256)
        currByte
      table.set dividend currByte)
    (List.replicate 256 0)

/-- Lines 62-71: `uint8_t Compute_CRC8_Table(data, table)`; `none` when a
lookup `table[dataByte]` falls outside the table. -/
def Compute_CRC8_Table (data : List Nat) (table : List Nat) : Option Nat :=
  data.foldlM
    (fun crc b =>
      let dataByte := (crc ^^^ b) % 256
      table[dataByte]?)
    0

/-- Lines 74-93: `uint8_t Compute_CRC8_Simple_Reflected(data)`. -/
def Compute_CRC8_Simple_Reflected (data : List Nat) : Nat :=
  let reflected_generator := Reflect8 generator
  let crc := data.foldl
    (fun crc currByte =>
      let dataByte := Reflect8 currByte
      let crc := (crc ^^^ dataByte) % 256
      (List.range 8).foldl
        (fun crc _ =>
          if crc &&& 0x01 ≠ 0 then ((crc >>> 1) ^^^ reflected_generator) % 256
          else (crc >>> 1) % 256)
        crc)
    0
  Reflect8 crc

/-- Lines 96-112: `vector<uint8_t> GenerateCRCTable_Reflected(uint8_t generator)`. -/
def GenerateCRCTable_Reflected (generator : Nat) : List Nat :=
  (List.range 256).foldl
    (fun table dividend =>
      let currByte := dividend % 256
      let currByte := (List.range 8).foldl
        (fun currByte _ =>
          if currByte &&& 0x01 ≠ 0 then ((currByte >>> 1) ^^^ generator) % 256
          else (currByte >>> 1) % 256)
        currByte
      table.set dividend currByte)
    (List.replicate 256 0)

/-- Lines 114-124: `uint8_t Compute_CRC8_Table_Reflected(data, table)`; `none`
when a lookup falls outside the table. -/
def Compute_CRC8_Table_Reflected (data : List Nat) (table : List Nat) : Option Nat :=
  (data.foldlM
    (fun crc b =>
      let dataByte := (crc ^^^ Reflect8 b) % 256
      table[dataByte]?)
    0).map Reflect8


/-! ## Auxiliary definitions used to state and prove the properties -/

/-- One round of the most-significant-bit-first inner loop (the body of the
`for` at lines 32-38 and 50-56) with polynomial `g`. -/
def msbRound (g c : Nat) : Nat :=
  if c &&& 0x80 ≠ 0 then ((c <<< 1) ^^^ g) % 256 else (c <<< 1) % 256

/-- One round of the least-significant-bit-first inner loop (the body of the
`for` at lines 83-89 and 102-108) with polynomial `g`. -/
def lsbRound (g c : Nat) : Nat :=
  if c &&& 0x01 ≠ 0 then ((c >>> 1) ^^^ g) % 256 else (c >>> 1) % 256

/-- The eight rounds of the most-significant-bit-first inner loop. -/
def msbByte (g c : Nat) : Nat := (List.range 8).foldl (fun c _ => msbRound g c) c

/-- The eight rounds of the least-significant-bit-first inner loop. -/
def lsbByte (g c : Nat) : Nat := (List.range 8).foldl (fun c _ => lsbRound g c) c

/-- The low eight bits of `b` read as a polynomial in `x`: bit `i` is the
coefficient of `x ^ i`, so bit 7 is the coefficient of `x ^ 7`.  With
`R = (ZMod 2)[X]` and `x = X` this is the GF(2) polynomial of the byte. -/
def bytePoly {R : Type} [Semiring R] (x : R) (b : Nat) : R :=
  ∑ i in Finset.range 8, if b.testBit i then x ^ i else 0

/-- The message polynomial of `S` in `x`: first byte first and most
significant bit first, so appending a byte multiplies what came before by
`x ^ 8` and adds the polynomial of the new byte. -/
def msgPoly {R : Type} [Semiring R] (x : R) (S : List Nat) : R :=
  S.foldl (fun m b => m * x ^ 8 + bytePoly x b) 0

/-! ## Lookup tables -/

/-- Filling a zero-initialised vector of length `n` at the indices `0..k-1`
keeps its length and leaves `f i` at every index `i < k`. -/
theorem foldl_set_range_aux (f : Nat → Nat) (n : Nat) :
    ∀ k, k ≤ n →
      ((List.range k).foldl (fun table d => table.set d (f d)) (List.replicate n 0)).length = n ∧
      ∀ i, i < k →
        ((List.range k).foldl (fun table d => table.set d (f d)) (List.replicate n 0))[i]?
          = some (f i) := by
  intro k
  induction k with
  | zero => intro _; simp
  | succ k ih =>
    intro hk
    obtain ⟨hlen, hget⟩ := ih (Nat.le_of_succ_le hk)
    rw [List.range_succ, List.foldl_append]
    simp only [List.foldl_cons, List.foldl_nil]
    refine ⟨by simp [hlen], ?_⟩
    intro i hi
    by_cases hik : i = k
    · subst hik
      rw [List.getElem?_set_self]
      · omega
    · rw [List.getElem?_set_ne (Ne.symm hik)]
      exact hget i (by omega)

theorem GenerateCRCTable_length (P : Nat) : (GenerateCRCTable P).length = 256 :=
  (foldl_set_range_aux (fun d => msbByte P (d % 256)) 256 256 (Nat.le_refl _)).1

theorem GenerateCRCTable_getElem? (P i : Nat) (h : i < 256) :
    (GenerateCRCTable P)[i]? = some (msbByte P (i % 256)) :=
  (foldl_set_range_aux (fun d => msbByte P (d % 256)) 256 256 (Nat.le_refl _)).2 i h

theorem GenerateCRCTable_Reflected_length (P : Nat) :
    (GenerateCRCTable_Reflected P).length = 256 :=
  (foldl_set_range_aux (fun d => lsbByte P (d % 256)) 256 256 (Nat.le_refl _)).1

theorem GenerateCRCTable_Reflected_getElem? (P i : Nat) (h : i < 256) :
    (GenerateCRCTable_Reflected P)[i]? = some (lsbByte P (i % 256)) :=
  (foldl_set_range_aux (fun d => lsbByte P (d % 256)) 256 256 (Nat.le_refl _)).2 i h

/-! ## The engines as folds of the per-byte step -/

theorem Compute_CRC8_Simple_eq (S : List Nat) :
    Compute_CRC8_Simple S = S.foldl (fun crc b => msbByte generator ((crc ^^^ b) % 256)) 0 := rfl

theorem Compute_CRC8_Simple_Reflected_eq (S : List Nat) :
    Compute_CRC8_Simple_Reflected S =
      Reflect8 (S.foldl (fun crc b => lsbByte (Reflect8 generator) ((crc ^^^ Reflect8 b) % 256)) 0) :=
  rfl

/-- A table engine whose table holds `f i` at every index below 256 never
leaves the table and computes the fold of `f`. -/
theorem table_foldlM (f : Nat → Nat) (g : Nat → Nat) (T : List Nat)
    (hT : ∀ i, i < 256 → T[i]? = some (f i)) (S : List Nat) (crc : Nat) :
    S.foldlM (fun crc b => T[(crc ^^^ g b) % 256]?) crc
      = some (S.foldl (fun crc b => f ((crc ^^^ g b) % 256)) crc) := by
  induction S generalizing crc with
  | nil => rfl
  | cons b S ih =>
    rw [List.foldlM_cons, hT _ (Nat.mod_lt _ (by decide))]
    exact ih _

/-! ## Bit reflection -/

/-- Masking with a power of two is non-zero exactly when that bit is set. -/
theorem and_two_pow_ne_zero (c k : Nat) : c &&& 2 ^ k ≠ 0 ↔ c.testBit k = true := by
  constructor
  · intro h
    by_contra hk
    apply h
    apply Nat.eq_of_testBit_eq
    intro j
    rw [Nat.testBit_and, Nat.testBit_two_pow, Nat.zero_testBit]
    by_cases hj : k = j
    · subst hj; simp [hk]
    · simp [hj]
  · intro h h0
    have : (c &&& 2 ^ k).testBit k = true := by
      rw [Nat.testBit_and, Nat.testBit_two_pow_self, h]; rfl
    rw [h0, Nat.zero_testBit] at this
    exact Bool.noConfusion this

theorem and_one_shiftLeft_mod (b i : Nat) (hi : i < 8) :
    (b % 256) &&& (1 <<< i) = b &&& (1 <<< i) := by
  apply Nat.eq_of_testBit_eq
  intro j
  rw [Nat.testBit_and, Nat.testBit_and, show (256 : Nat) = 2 ^ 8 from rfl, Nat.testBit_mod_two_pow,
    Nat.one_shiftLeft, Nat.testBit_two_pow]
  by_cases hj : i = j
  · subst hj; simp [hi]
  · simp [hj]

/-- `Reflect8` reads only the low eight bits of its argument. -/
theorem Reflect8_mod (b : Nat) : Reflect8 (b % 256) = Reflect8 b := by
  unfold Reflect8
  apply List.foldl_ext
  intro r i hi
  rw [and_one_shiftLeft_mod b i (List.mem_range.mp hi)]

set_option maxRecDepth 100000 in
theorem Reflect8_lt_byte : ∀ b < 256, Reflect8 b < 256 := by decide

theorem Reflect8_lt (b : Nat) : Reflect8 b < 256 := by
  rw [← Reflect8_mod]; exact Reflect8_lt_byte _ (Nat.mod_lt _ (by decide))

set_option maxRecDepth 100000 in
theorem Reflect8_testBit_byte :
    ∀ b < 256, ∀ i < 8, (Reflect8 b).testBit i = b.testBit (7 - i) := by decide

set_option maxRecDepth 100000 in
theorem Reflect8_Reflect8_byte : ∀ b < 256, Reflect8 (Reflect8 b) = b := by decide

theorem Reflect8_testBit (b i : Nat) :
    (Reflect8 b).testBit i = (decide (i < 8) && b.testBit (7 - i)) := by
  by_cases hi : i < 8
  · rw [← Reflect8_mod, Reflect8_testBit_byte _ (Nat.mod_lt _ (by decide)) i hi,
      show (256 : Nat) = 2 ^ 8 from rfl, Nat.testBit_mod_two_pow]
    have : 7 - i < 8 := by omega
    simp [hi, this]
  · have h1 : Reflect8 b < 2 ^ i :=
      Nat.lt_of_lt_of_le (Reflect8_lt b)
        (Nat.pow_le_pow_right (by decide) (by omega) : 2 ^ 8 ≤ 2 ^ i)
    simp [Nat.testBit_lt_two_pow h1, hi]

/-- `Reflect8` is linear over XOR. -/
theorem Reflect8_xor (a b : Nat) : Reflect8 (a ^^^ b) = Reflect8 a ^^^ Reflect8 b := by
  apply Nat.eq_of_testBit_eq
  intro i
  simp only [Nat.testBit_xor, Reflect8_testBit]
  cases decide (i < 8) <;> simp

/-! ## The two bit orders -/

set_option maxRecDepth 100000 in
/-- Eight LSB-first rounds on the reflected accumulator are the reflection of
eight MSB-first rounds. -/
theorem lsbByte_Reflect8 :
    ∀ d < 256, lsbByte (Reflect8 generator) (Reflect8 d) = Reflect8 (msbByte generator d) := by
  decide

set_option maxRecDepth 100000 in
theorem msbByte_lt_byte : ∀ d < 256, msbByte generator d < 256 := by decide

set_option maxRecDepth 100000 in
theorem lsbByte_lt_byte : ∀ d < 256, lsbByte (Reflect8 generator) d < 256 := by decide

theorem msbRound_zero (P : Nat) : msbRound P 0 = 0 := by
  simp [msbRound]

theorem msbByte_zero (P : Nat) : msbByte P 0 = 0 := by
  unfold msbByte
  generalize List.range 8 = l
  induction l with
  | nil => rfl
  | cons _ l ih => simp only [List.foldl_cons, msbRound_zero, ih]

theorem Simple_fold_lt (S : List Nat) (crc : Nat) (h : crc < 256) :
    S.foldl (fun crc b => msbByte generator ((crc ^^^ b) % 256)) crc < 256 := by
  induction S generalizing crc with
  | nil => exact h
  | cons b S ih => exact ih _ (msbByte_lt_byte _ (Nat.mod_lt _ (by decide)))

/-- The accumulator of the reflected engine is, after every byte, the
reflection of the accumulator of the normal engine. -/
theorem reflected_fold (S : List Nat) (c : Nat) (hc : c < 256) :
    S.foldl (fun crc b => lsbByte (Reflect8 generator) ((crc ^^^ Reflect8 b) % 256)) (Reflect8 c)
      = Reflect8 (S.foldl (fun crc b => msbByte generator ((crc ^^^ b) % 256)) c) := by
  induction S generalizing c with
  | nil => rfl
  | cons b S ih =>
    simp only [List.foldl_cons]
    have hd : (c ^^^ b) % 256 < 256 := Nat.mod_lt _ (by decide)
    have e : (Reflect8 c ^^^ Reflect8 b) % 256 = Reflect8 ((c ^^^ b) % 256) := by
      rw [← Reflect8_xor, Nat.mod_eq_of_lt (Reflect8_lt _), Reflect8_mod]
    rw [e, lsbByte_Reflect8 _ hd]
    exact ih _ (msbByte_lt_byte _ hd)

set_option maxRecDepth 100000 in
theorem lsbByte_eq_Reflect8_engine :
    ∀ i < 256, lsbByte (Reflect8 generator) (i % 256)
      = Reflect8 (Compute_CRC8_Simple_Reflected [Reflect8 i]) := by
  decide

/-! ## The checksum as a polynomial remainder over GF(2) -/

theorem bytePoly_xor (a b : Nat) :
    bytePoly (X : (ZMod 2)[X]) (a ^^^ b) = bytePoly X a + bytePoly X b := by
  unfold bytePoly
  rw [← Finset.sum_add_distrib]
  apply Finset.sum_congr rfl
  intro i _
  rw [Nat.testBit_xor]
  cases a.testBit i <;> cases b.testBit i <;> simp [CharTwo.add_self_eq_zero]

theorem bytePoly_mod (n : Nat) :
    bytePoly (X : (ZMod 2)[X]) (n % 256) = bytePoly X n := by
  unfold bytePoly
  apply Finset.sum_congr rfl
  intro i hi
  rw [show (256 : Nat) = 2 ^ 8 from rfl, Nat.testBit_mod_two_pow]
  simp [Finset.mem_range.mp hi]

/-- Shifting left multiplies by `X`; the bit that leaves the byte is the
`X ^ 8` term. -/
theorem bytePoly_shiftLeft (c : Nat) :
    bytePoly (X : (ZMod 2)[X]) (c <<< 1)
      = X * bytePoly X c + (if c.testBit 7 then X ^ 8 else 0) := by
  unfold bytePoly
  rw [Finset.sum_range_succ' _ 7,
    Finset.sum_range_succ (fun i => if c.testBit i then (X : (ZMod 2)[X]) ^ i else 0) 7,
    mul_add, Finset.mul_sum]
  have h0 : (c <<< 1).testBit 0 = false := by simp [Nat.shiftLeft_eq]
  rw [h0]
  have e : ∀ i ∈ Finset.range 7,
      (if (c <<< 1).testBit (i + 1) then (X : (ZMod 2)[X]) ^ (i + 1) else 0)
      = X * (if c.testBit i then X ^ i else 0) := by
    intro i _
    have hs : (c <<< 1).testBit (i + 1) = c.testBit i := by
      rw [Nat.testBit_shiftLeft]; simp
    rw [hs]
    cases c.testBit i <;> simp [pow_succ, mul_comm]
  rw [Finset.sum_congr rfl e]
  cases c.testBit 7
  · simp
  · simp only [if_true, Bool.false_eq_true, if_false, add_zero]
    rw [add_assoc, show (X : (ZMod 2)[X]) * X ^ 7 = X ^ 8 from by ring,
      CharTwo.add_self_eq_zero, add_zero]

theorem bytePoly_generator :
    bytePoly (X : (ZMod 2)[X]) generator = X ^ 7 + X ^ 4 + X ^ 3 + X + 1 := by
  unfold bytePoly
  simp [Finset.sum_range_succ, generator, Nat.testBit_to_div_mod]
  ring

/-- One round of the inner loop multiplies by `X` and subtracts the generator
polynomial when the top bit was set. -/
theorem bytePoly_msbRound (c : Nat) :
    bytePoly (X : (ZMod 2)[X]) (msbRound generator c)
      = X * bytePoly X c
        + (if c.testBit 7 then X ^ 8 + X ^ 7 + X ^ 4 + X ^ 3 + X + 1 else 0) := by
  unfold msbRound
  have hc : (c &&& 0x80 ≠ 0) ↔ c.testBit 7 = true := and_two_pow_ne_zero c 7
  by_cases h : c.testBit 7 = true
  · rw [if_pos (hc.mpr h), bytePoly_mod, bytePoly_xor, bytePoly_shiftLeft, bytePoly_generator]
    simp only [h, if_true]
    ring
  · rw [if_neg (fun h' => h (hc.mp h')), bytePoly_mod, bytePoly_shiftLeft]
    simp [h]

theorem bytePoly_msbRounds (n c : Nat) :
    ∃ q : (ZMod 2)[X],
      bytePoly X ((List.range n).foldl (fun c _ => msbRound generator c) c)
        = X ^ n * bytePoly X c + (X ^ 8 + X ^ 7 + X ^ 4 + X ^ 3 + X + 1) * q := by
  induction n with
  | zero => exact ⟨0, by simp⟩
  | succ n ih =>
    obtain ⟨q, hq⟩ := ih
    rw [List.range_succ, List.foldl_append]
    simp only [List.foldl_cons, List.foldl_nil]
    rw [bytePoly_msbRound, hq]
    split
    · exact ⟨X * q + 1, by ring⟩
    · exact ⟨X * q, by ring⟩

/-- The accumulator stays congruent to the message polynomial times `X ^ 8`
modulo the generator polynomial. -/
theorem bytePoly_fold (S : List Nat) (c : Nat) (m q : (ZMod 2)[X])
    (h : bytePoly X c = m * X ^ 8 + (X ^ 8 + X ^ 7 + X ^ 4 + X ^ 3 + X + 1) * q) :
    ∃ r : (ZMod 2)[X],
      bytePoly X (S.foldl (fun crc b => msbByte generator ((crc ^^^ b) % 256)) c)
        = S.foldl (fun m b => m * X ^ 8 + bytePoly X b) m * X ^ 8
          + (X ^ 8 + X ^ 7 + X ^ 4 + X ^ 3 + X + 1) * r := by
  induction S generalizing c m q with
  | nil => exact ⟨q, h⟩
  | cons b S ih =>
    simp only [List.foldl_cons]
    obtain ⟨q1, hq1⟩ := bytePoly_msbRounds 8 ((c ^^^ b) % 256)
    apply ih _ _ (X ^ 8 * q + q1)
    unfold msbByte
    rw [hq1, bytePoly_mod, bytePoly_xor, h]
    ring

theorem bytePoly_degree_lt (b : Nat) : (bytePoly (X : (ZMod 2)[X]) b).degree < 8 := by
  rw [show ((8 : WithBot ℕ)) = ((8 : ℕ) : WithBot ℕ) from rfl, degree_lt_iff_coeff_zero]
  intro m hm
  unfold bytePoly
  rw [finset_sum_coeff]
  apply Finset.sum_eq_zero
  intro i hi
  have : i ≠ m := by have := Finset.mem_range.mp hi; omega
  split
  · rw [coeff_X_pow, if_neg (Ne.symm this)]
  · simp

theorem genPoly_monic : (X ^ 8 + X ^ 7 + X ^ 4 + X ^ 3 + X + 1 : (ZMod 2)[X]).Monic := by
  monicity!

theorem genPoly_degree : (X ^ 8 + X ^ 7 + X ^ 4 + X ^ 3 + X + 1 : (ZMod 2)[X]).degree = 8 := by
  compute_degree!

/-! ## Linearity of the MSB-first rounds over XOR -/

theorem testBit_mod_256 (x i : Nat) :
    (x % 256).testBit i = (decide (i < 8) && x.testBit i) := by
  rw [show (256 : Nat) = 2 ^ 8 from rfl, Nat.testBit_mod_two_pow]

theorem xor_mod_256 (a b : Nat) : (a ^^^ b) % 256 = (a % 256) ^^^ (b % 256) := by
  apply Nat.eq_of_testBit_eq
  intro i
  simp only [Nat.testBit_xor, testBit_mod_256]
  cases decide (i < 8) <;> simp

theorem xor_left_comm (a b c : Nat) : a ^^^ (b ^^^ c) = b ^^^ (a ^^^ c) := by
  rw [← Nat.xor_assoc, Nat.xor_comm a b, Nat.xor_assoc]

theorem xor_xor_xor_comm (a b c d : Nat) :
    (a ^^^ b) ^^^ (c ^^^ d) = (a ^^^ c) ^^^ (b ^^^ d) := by
  rw [Nat.xor_assoc, Nat.xor_assoc, xor_left_comm b c d]

theorem shiftLeft_xor (a b : Nat) : (a ^^^ b) <<< 1 = (a <<< 1) ^^^ (b <<< 1) := by
  apply Nat.eq_of_testBit_eq
  intro i
  simp only [Nat.testBit_xor, Nat.testBit_shiftLeft]
  cases decide (i ≥ 1) <;> simp

/-- One round written without a branch: shift, then XOR the polynomial in
when the top bit was set. -/
theorem msbRound_eq (g c : Nat) :
    msbRound g c = ((c <<< 1) % 256) ^^^ (if c.testBit 7 then g % 256 else 0) := by
  unfold msbRound
  have hc : (c &&& 0x80 ≠ 0) ↔ c.testBit 7 = true := and_two_pow_ne_zero c 7
  by_cases h : c.testBit 7 = true
  · rw [if_pos (hc.mpr h), if_pos h, xor_mod_256]
  · rw [if_neg (fun h' => h (hc.mp h')), if_neg h, Nat.xor_zero]

theorem msbRound_lt (g c : Nat) : msbRound g c < 256 := by
  unfold msbRound
  split <;> exact Nat.mod_lt _ (by decide)

theorem msbRound_xor (g a b : Nat) :
    msbRound g (a ^^^ b) = msbRound g a ^^^ msbRound g b := by
  rw [msbRound_eq, msbRound_eq, msbRound_eq, shiftLeft_xor, xor_mod_256, Nat.testBit_xor]
  cases a.testBit 7 <;> cases b.testBit 7
  · simp
  · simp only [Bool.false_xor, if_true, Bool.false_eq_true, if_false, Nat.xor_zero]
    rw [Nat.xor_assoc]
  · simp only [Bool.xor_false, if_true, Bool.false_eq_true, if_false, Nat.xor_zero]
    rw [Nat.xor_assoc, Nat.xor_assoc, Nat.xor_comm (g % 256)]
  · simp only [Bool.xor_self, if_true, Bool.false_eq_true, if_false, Nat.xor_zero]
    rw [xor_xor_xor_comm, Nat.xor_self, Nat.xor_zero]

theorem msbRounds_xor (g : Nat) (l : List Nat) (a b : Nat) :
    l.foldl (fun c _ => msbRound g c) (a ^^^ b)
      = l.foldl (fun c _ => msbRound g c) a ^^^ l.foldl (fun c _ => msbRound g c) b := by
  induction l generalizing a b with
  | nil => rfl
  | cons _ l ih => simp only [List.foldl_cons]; rw [msbRound_xor, ih]

/-- The eight rounds are linear over XOR. -/
theorem msbByte_xor (g a b : Nat) : msbByte g (a ^^^ b) = msbByte g a ^^^ msbByte g b :=
  msbRounds_xor g (List.range 8) a b

theorem msbByte_lt (g c : Nat) : msbByte g c < 256 := by
  unfold msbByte
  rw [show List.range 8 = List.range 7 ++ [7] from rfl, List.foldl_append]
  exact msbRound_lt _ _

set_option maxRecDepth 100000 in
theorem msbByte_eq_zero_byte : ∀ d < 256, msbByte generator d = 0 → d = 0 := by decide

/-- On byte values the eight rounds with the generator are injective. -/
theorem msbByte_injective (a b : Nat) (ha : a < 256) (hb : b < 256)
    (h : msbByte generator a = msbByte generator b) : a = b := by
  have h0 : msbByte generator (a ^^^ b) = 0 := by
    rw [msbByte_xor, h, Nat.xor_self]
  have hab : a ^^^ b = 0 :=
    msbByte_eq_zero_byte _ (@Nat.xor_lt_two_pow _ _ 8 ha hb) h0
  have : a ^^^ b = a ^^^ a := by rw [hab, Nat.xor_self]
  exact (Nat.xor_right_inj.mp this).symm

/-- The per-byte step of the sequential engine, as a fold with any start. -/
theorem Simple_fold_xor (A B : List Nat) (hlen : A.length = B.length) (c d : Nat) :
    (List.zipWith (fun a b => a ^^^ b) A B).foldl
        (fun crc b => msbByte generator ((crc ^^^ b) % 256)) (c ^^^ d)
      = A.foldl (fun crc b => msbByte generator ((crc ^^^ b) % 256)) c
        ^^^ B.foldl (fun crc b => msbByte generator ((crc ^^^ b) % 256)) d := by
  induction A generalizing B c d with
  | nil =>
    cases B with
    | nil => rfl
    | cons _ _ => simp at hlen
  | cons a A ih =>
    cases B with
    | nil => simp at hlen
    | cons b B =>
      simp only [List.zipWith_cons_cons, List.foldl_cons]
      have e : ((c ^^^ d) ^^^ (a ^^^ b)) % 256 = ((c ^^^ a) % 256) ^^^ ((d ^^^ b) % 256) := by
        rw [← xor_mod_256, xor_xor_xor_comm]
      rw [e, msbByte_xor]
      exact ih B (by simpa using hlen) _ _

/-- Distinct accumulators stay distinct whatever bytes follow. -/
theorem Simple_fold_injective (Q : List Nat) (c d : Nat) (hc : c < 256) (hd : d < 256)
    (hne : c ≠ d) :
    Q.foldl (fun crc b => msbByte generator ((crc ^^^ b) % 256)) c
      ≠ Q.foldl (fun crc b => msbByte generator ((crc ^^^ b) % 256)) d := by
  induction Q generalizing c d with
  | nil => exact hne
  | cons q Q ih =>
    simp only [List.foldl_cons]
    apply ih _ _ (msbByte_lt _ _) (msbByte_lt _ _)
    intro h
    have h1 := msbByte_injective _ _ (Nat.mod_lt _ (by decide)) (Nat.mod_lt _ (by decide)) h
    rw [xor_mod_256, xor_mod_256, Nat.mod_eq_of_lt hc, Nat.mod_eq_of_lt hd] at h1
    exact hne (Nat.xor_left_inj.mp h1)

/-- Changing one byte of the input, to a different byte value, changes the
checksum. -/
theorem Simple_single_corruption (P Q : List Nat) (a b : Nat) (ha : a < 256) (hb : b < 256)
    (hne : a ≠ b) :
    Compute_CRC8_Simple (P ++ a :: Q) ≠ Compute_CRC8_Simple (P ++ b :: Q) := by
  rw [Compute_CRC8_Simple_eq, Compute_CRC8_Simple_eq, List.foldl_append, List.foldl_append]
  simp only [List.foldl_cons]
  have hc := Simple_fold_lt P 0 (by decide)
  apply Simple_fold_injective Q _ _ (msbByte_lt _ _) (msbByte_lt _ _)
  intro h
  have h1 := msbByte_injective _ _ (Nat.mod_lt _ (by decide)) (Nat.mod_lt _ (by decide)) h
  rw [Nat.mod_eq_of_lt (@Nat.xor_lt_two_pow _ _ 8 hc ha),
    Nat.mod_eq_of_lt (@Nat.xor_lt_two_pow _ _ 8 hc hb)] at h1
  exact hne (Nat.xor_right_inj.mp h1)

/-- Two lists of equal length that differ at position `k` and nowhere else
share the part before `k` and the part after it. -/
theorem split_at_difference (S T : List Nat) (hlen : S.length = T.length) (k : Nat)
    (hk : k < S.length) (hsame : ∀ j, j < S.length → j ≠ k → S[j]? = T[j]?) :
    S = S.take k ++ S[k] :: S.drop (k + 1) ∧
    T = S.take k ++ (T.get ⟨k, hlen ▸ hk⟩) :: S.drop (k + 1) := by
  have hkT : k < T.length := hlen ▸ hk
  have hP : S.take k = T.take k := by
    apply List.ext_getElem?
    intro j
    by_cases hj : j < k
    · rw [List.getElem?_take_of_lt hj, List.getElem?_take_of_lt hj]
      exact hsame j (by omega) (by omega)
    · rw [List.getElem?_eq_none (by simp; omega), List.getElem?_eq_none (by simp; omega)]
  have hQ : S.drop (k + 1) = T.drop (k + 1) := by
    apply List.ext_getElem?
    intro j
    rw [List.getElem?_drop, List.getElem?_drop]
    by_cases hj : k + 1 + j < S.length
    · exact hsame _ hj (by omega)
    · rw [List.getElem?_eq_none (by omega), List.getElem?_eq_none (by omega)]
  constructor
  · rw [← List.drop_eq_getElem_cons hk, List.take_append_drop]
  · rw [hP, hQ, List.get_eq_getElem, ← List.drop_eq_getElem_cons hkT, List.take_append_drop]

/-! ## The normal table as a permutation -/

theorem GenerateCRCTable_eq_map (P : Nat) :
    GenerateCRCTable P = (List.range 256).map (msbByte P) := by
  apply List.ext_getElem?
  intro n
  by_cases hn : n < 256
  · rw [GenerateCRCTable_getElem? P n hn, Nat.mod_eq_of_lt hn, List.getElem?_map,
      List.getElem?_range hn]
    rfl
  · rw [List.getElem?_eq_none (by rw [GenerateCRCTable_length]; omega),
      List.getElem?_eq_none (by simp; omega)]

theorem GenerateCRCTable_nodup : (GenerateCRCTable generator).Nodup := by
  rw [GenerateCRCTable_eq_map]
  apply List.Nodup.map_on _ (List.nodup_range 256)
  intro x hx y hy h
  exact msbByte_injective x y (List.mem_range.mp hx) (List.mem_range.mp hy) h

theorem GenerateCRCTable_perm : (GenerateCRCTable generator).Perm (List.range 256) := by
  apply List.Subperm.perm_of_length_le
  · apply List.subperm_of_subset GenerateCRCTable_nodup
    intro x hx
    rw [GenerateCRCTable_eq_map] at hx
    obtain ⟨y, _, rfl⟩ := List.mem_map.mp hx
    exact List.mem_range.mpr (msbByte_lt _ _)
  · rw [GenerateCRCTable_length, List.length_range]

/-! ## The reflected rounds for an arbitrary polynomial -/

set_option maxRecDepth 100000 in
theorem Reflect8_shiftLeft_byte :
    ∀ c < 256, Reflect8 ((c <<< 1) % 256) = Reflect8 c >>> 1 := by decide

theorem lsbRound_Reflect8 (P c : Nat) (hc : c < 256) :
    lsbRound (Reflect8 P) (Reflect8 c) = Reflect8 (msbRound P c) := by
  have hs := Reflect8_shiftLeft_byte c hc
  have hlt : Reflect8 c >>> 1 < 256 := by rw [← hs]; exact Reflect8_lt _
  have h0 : (Reflect8 c).testBit 0 = c.testBit 7 := by
    rw [Reflect8_testBit]; simp
  have hb : (Reflect8 c &&& 0x01 ≠ 0) ↔ (Reflect8 c).testBit 0 = true :=
    and_two_pow_ne_zero (Reflect8 c) 0
  rw [msbRound_eq, Reflect8_xor, hs]
  unfold lsbRound
  by_cases h : c.testBit 7 = true
  · rw [if_pos (hb.mpr (h0.trans h)), if_pos h, Reflect8_mod,
      Nat.mod_eq_of_lt (@Nat.xor_lt_two_pow _ _ 8 hlt (Reflect8_lt P))]
  · rw [if_neg (fun h' => h (h0.symm.trans (hb.mp h'))), if_neg h, Nat.mod_eq_of_lt hlt,
      show Reflect8 0 = 0 from by decide, Nat.xor_zero]

theorem lsbRounds_Reflect8 (P : Nat) (l : List Nat) (c : Nat) (hc : c < 256) :
    l.foldl (fun c _ => lsbRound (Reflect8 P) c) (Reflect8 c)
      = Reflect8 (l.foldl (fun c _ => msbRound P c) c) := by
  induction l generalizing c with
  | nil => rfl
  | cons _ l ih =>
    simp only [List.foldl_cons]
    rw [lsbRound_Reflect8 P c hc]
    exact ih _ (msbRound_lt _ _)

/-- Eight LSB-first rounds with the reflected polynomial, started from a
reflected byte, are the reflection of eight MSB-first rounds. -/
theorem lsbByte_Reflect8_poly (P c : Nat) (hc : c < 256) :
    lsbByte (Reflect8 P) (Reflect8 c) = Reflect8 (msbByte P c) :=
  lsbRounds_Reflect8 P (List.range 8) c hc

/-! ## Table engines on any table of 256 entries -/

theorem table_foldlM_isSome (g : Nat → Nat) (T : List Nat) (hT : T.length = 256)
    (S : List Nat) (crc : Nat) :
    ∃ v, S.foldlM (fun crc b => T[(crc ^^^ g b) % 256]?) crc = some v := by
  induction S generalizing crc with
  | nil => exact ⟨crc, rfl⟩
  | cons b S ih =>
    have hi : (crc ^^^ g b) % 256 < T.length := by
      rw [hT]; exact Nat.mod_lt _ (by decide)
    rw [List.foldlM_cons, List.getElem?_eq_getElem hi]
    exact ih _

set_option maxRecDepth 100000 in
theorem cross_table_value :
    Compute_CRC8_Table [0x01] (GenerateCRCTable_Reflected (Reflect8 generator)) = some 0xD0 := by
  decide

theorem Simple_fold_zeros (k : Nat) :
    (List.replicate k 0).foldl (fun crc b => msbByte generator ((crc ^^^ b) % 256)) 0 = 0 := by
  induction k with
  | zero => rfl
  | succ k ih =>
    rw [List.replicate_succ, List.foldl_cons]
    rw [show ((0 : Nat) ^^^ 0) % 256 = 0 from rfl, msbByte_zero]
    exact ih

/-! ## The claims -/

/-- Claim C1: for every byte sequence `S` (indeed for every list), the table
engine run on `GenerateCRCTable generator` stays inside the table and returns
the value of `Compute_CRC8_Simple S`. -/
theorem C1_table_engine_eq_simple (S : List Nat) :
    Compute_CRC8_Table S (GenerateCRCTable generator) = some (Compute_CRC8_Simple S) := by
  rw [Compute_CRC8_Simple_eq]
  exact table_foldlM (msbByte generator) id _
    (fun i hi => by rw [GenerateCRCTable_getElem? _ _ hi, Nat.mod_eq_of_lt hi]) S 0

/-- Claim C2: for every byte sequence `S` (indeed for every list), the
MSB-first engine and the bit-reflected LSB-first engine return the same
value. -/
theorem C2_simple_eq_simple_reflected (S : List Nat) :
    Compute_CRC8_Simple S = Compute_CRC8_Simple_Reflected S := by
  rw [Compute_CRC8_Simple_Reflected_eq, Compute_CRC8_Simple_eq]
  have h := reflected_fold S 0 (by decide)
  rw [show Reflect8 0 = 0 from by decide] at h
  rw [h, Reflect8_Reflect8_byte _ (Simple_fold_lt S 0 (by decide))]

/-- Claim C3: for every byte sequence `S` (indeed for every list), the
reflected table engine run on `GenerateCRCTable_Reflected (Reflect8 generator)`
stays inside the table and returns the value of
`Compute_CRC8_Simple_Reflected S`. -/
theorem C3_reflected_table_engine_eq_simple_reflected (S : List Nat) :
    Compute_CRC8_Table_Reflected S (GenerateCRCTable_Reflected (Reflect8 generator))
      = some (Compute_CRC8_Simple_Reflected S) := by
  rw [Compute_CRC8_Simple_Reflected_eq]
  unfold Compute_CRC8_Table_Reflected
  rw [show (List.foldlM (fun crc b =>
        let dataByte := (crc ^^^ Reflect8 b) % 256
        (GenerateCRCTable_Reflected (Reflect8 generator))[dataByte]?) 0 S) = _ from
    table_foldlM (lsbByte (Reflect8 generator)) Reflect8 _
    (fun i hi => by rw [GenerateCRCTable_Reflected_getElem? _ _ hi, Nat.mod_eq_of_lt hi]) S 0]
  rfl

/-- Claim C4: for every byte sequence `S`, the value of `Compute_CRC8_Simple S`
read as a polynomial over GF(2) (bit 7 the coefficient of `X ^ 7`) is the
remainder of the message polynomial times `X ^ 8` on division by the monic
polynomial `X ^ 8 + X ^ 7 + X ^ 4 + X ^ 3 + X + 1`. -/
theorem C4_simple_is_polynomial_remainder (S : List Nat) :
    bytePoly (X : (ZMod 2)[X]) (Compute_CRC8_Simple S)
      = (msgPoly X S * X ^ 8) %ₘ (X ^ 8 + X ^ 7 + X ^ 4 + X ^ 3 + X + 1) := by
  obtain ⟨q, hq⟩ := bytePoly_fold S 0 0 0 (by simp [bytePoly])
  rw [Compute_CRC8_Simple_eq]
  symm
  refine (div_modByMonic_unique q _ genPoly_monic ⟨?_, ?_⟩).2
  · unfold msgPoly
    rw [hq, add_assoc, CharTwo.add_self_eq_zero, add_zero]
  · rw [genPoly_degree]; exact bytePoly_degree_lt _

/-- Claim C5: for every 8-bit value `b`, reflecting twice gives `b` back. -/
theorem C5_Reflect8_involution (b : Nat) (hb : b < 256) : Reflect8 (Reflect8 b) = b :=
  Reflect8_Reflect8_byte b hb

/-- Claim C5 at `b = 0x9B`. -/
theorem C5_Reflect8_involution_witness : 0x9B < 256 ∧ Reflect8 (Reflect8 0x9B) = 0x9B :=
  ⟨by decide, C5_Reflect8_involution 0x9B (by decide)⟩

/-- Claim C6: for every 8-bit value `b` and every bit position `i` in 0..7,
bit `i` of `Reflect8 b` is bit `7 - i` of `b`. -/
theorem C6_Reflect8_reverses_bits (b i : Nat) (hb : b < 256) (hi : i < 8) :
    (Reflect8 b).testBit i = b.testBit (7 - i) :=
  Reflect8_testBit_byte b hb i hi

/-- Claim C6 at `b = 0x9B`, `i = 2`. -/
theorem C6_Reflect8_reverses_bits_witness :
    0x9B < 256 ∧ 2 < 8 ∧ (Reflect8 0x9B).testBit 2 = (0x9B).testBit (7 - 2) :=
  ⟨by decide, by decide, C6_Reflect8_reverses_bits 0x9B 2 (by decide) (by decide)⟩

/-- Claim C7: for every byte value `i`, entry `i` of `GenerateCRCTable generator`
is the checksum `Compute_CRC8_Simple` returns for the one-byte sequence `[i]`. -/
theorem C7_table_entry_eq_simple_singleton (i : Nat) (hi : i < 256) :
    (GenerateCRCTable generator)[i]? = some (Compute_CRC8_Simple [i]) := by
  rw [GenerateCRCTable_getElem? _ _ hi, Compute_CRC8_Simple_eq]
  simp only [List.foldl_cons, List.foldl_nil, Nat.zero_xor]

/-- Claim C7 at `i = 0xA7`. -/
theorem C7_table_entry_eq_simple_singleton_witness :
    0xA7 < 256 ∧ (GenerateCRCTable generator)[0xA7]? = some (Compute_CRC8_Simple [0xA7]) :=
  ⟨by decide, C7_table_entry_eq_simple_singleton 0xA7 (by decide)⟩

/-- Claim C8 as stated fails at `i = 1`: entry 1 of the reflected table is
`0xD0`, while the reflected sequential engine returns `0x9B` for `[1]`. -/
theorem C8_reflected_table_entry_counterexample :
    (GenerateCRCTable_Reflected (Reflect8 generator))[1]? = some 0xD0 ∧
    Compute_CRC8_Simple_Reflected [1] = 0x9B ∧
    (GenerateCRCTable_Reflected (Reflect8 generator))[1]?
      ≠ some (Compute_CRC8_Simple_Reflected [1]) := by
  rw [GenerateCRCTable_Reflected_getElem? _ 1 (by decide)]
  decide

/-- Claim C8, amended: for every byte value `i`, entry `i` of
`GenerateCRCTable_Reflected (Reflect8 generator)` is the bit-reversal of the
checksum the reflected sequential engine returns for the one-byte sequence
`[Reflect8 i]`; the table works on the reflected byte and holds the
accumulator before the final reflection. -/
theorem C8_reflected_table_entry_amended (i : Nat) (hi : i < 256) :
    (GenerateCRCTable_Reflected (Reflect8 generator))[i]?
      = some (Reflect8 (Compute_CRC8_Simple_Reflected [Reflect8 i])) := by
  rw [GenerateCRCTable_Reflected_getElem? _ _ hi, lsbByte_eq_Reflect8_engine i hi]

/-- Claim C8, amended, at `i = 1`. -/
theorem C8_reflected_table_entry_amended_witness :
    1 < 256 ∧ (GenerateCRCTable_Reflected (Reflect8 generator))[1]?
      = some (Reflect8 (Compute_CRC8_Simple_Reflected [Reflect8 1])) :=
  ⟨by decide, C8_reflected_table_entry_amended 1 (by decide)⟩

/-- Claim C9: on the empty sequence both sequential engines return 0, and
with any table both table engines return 0 without a lookup. -/
theorem C9_empty_input :
    Compute_CRC8_Simple [] = 0 ∧ Compute_CRC8_Simple_Reflected [] = 0 ∧
    ∀ T : List Nat, Compute_CRC8_Table [] T = some 0 ∧
      Compute_CRC8_Table_Reflected [] T = some 0 := by
  refine ⟨rfl, by decide, fun T => ⟨rfl, ?_⟩⟩
  show Option.map Reflect8 (some 0) = some 0
  rw [Option.map_some', show Reflect8 0 = 0 from by decide]

/-- Claim C10: for every polynomial `P`, entry 0 of `GenerateCRCTable P` is 0;
and `Compute_CRC8_Simple [0x00]` equals entry 0 of `GenerateCRCTable generator`,
which is 0. -/
theorem C10_table_entry_zero :
    (∀ P : Nat, (GenerateCRCTable P)[0]? = some 0) ∧
    (GenerateCRCTable generator)[0]? = some (Compute_CRC8_Simple [0x00]) ∧
    Compute_CRC8_Simple [0x00] = 0 := by
  have h : ∀ P : Nat, (GenerateCRCTable P)[0]? = some 0 := fun P => by
    rw [GenerateCRCTable_getElem? P 0 (by decide)]
    exact congrArg some (msbByte_zero P)
  have e : Compute_CRC8_Simple [0x00] = 0 := by decide
  exact ⟨h, by rw [e]; exact h generator, e⟩

/-- Claim C11: for every polynomial `P` both table builders return exactly 256
entries; and for every byte sequence `S` (indeed every list) and every table
of 256 entries both table engines return a value, that is, every lookup
`table[(crc XOR byte) % 256]` they make is in bounds. -/
theorem C11_tables_have_256_entries_and_lookups_in_bounds :
    (∀ P : Nat, (GenerateCRCTable P).length = 256 ∧
      (GenerateCRCTable_Reflected P).length = 256) ∧
    ∀ S T : List Nat, T.length = 256 →
      (∃ v, Compute_CRC8_Table S T = some v) ∧
      (∃ v, Compute_CRC8_Table_Reflected S T = some v) := by
  refine ⟨fun P => ⟨GenerateCRCTable_length P, GenerateCRCTable_Reflected_length P⟩, ?_⟩
  intro S T hT
  refine ⟨table_foldlM_isSome id T hT S 0, ?_⟩
  obtain ⟨v, hv⟩ := table_foldlM_isSome Reflect8 T hT S 0
  refine ⟨Reflect8 v, ?_⟩
  unfold Compute_CRC8_Table_Reflected
  rw [show (List.foldlM (fun crc b =>
        let dataByte := (crc ^^^ Reflect8 b) % 256
        T[dataByte]?) 0 S) = some v from hv]
  rfl

/-- Claim C11 at `S = [0x31, 0xFF]` and the table of 256 entries all `7`. -/
theorem C11_tables_have_256_entries_and_lookups_in_bounds_witness :
    (List.replicate 256 7).length = 256 ∧
    (∃ v, Compute_CRC8_Table [0x31, 0xFF] (List.replicate 256 7) = some v) ∧
    (∃ v, Compute_CRC8_Table_Reflected [0x31, 0xFF] (List.replicate 256 7) = some v) :=
  ⟨List.length_replicate 256 7,
    C11_tables_have_256_entries_and_lookups_in_bounds.2 [0x31, 0xFF] (List.replicate 256 7)
      (List.length_replicate 256 7)⟩

/-- Claim C12: the generator constant, the literal `0b0110011011` (411)
stored in 8 bits, is `0x9B` (155, `0b10011011`), and the polynomial of the
reflected algorithms, `Reflect8 generator`, is `0xD9`. -/
theorem C12_generator_value :
    generator = 0b0110011011 % 256 ∧ (0b0110011011 : Nat) = 411 ∧ 411 % 256 = 155 ∧
    generator = 0x9B ∧ generator = 155 ∧ generator = 0b10011011 ∧
    Reflect8 generator = 0xD9 := by
  decide

/-- Claim C13: for every list `S` and every byte `b`, the checksum of
`S ++ [b]` is the entry of `GenerateCRCTable generator` at index
`Compute_CRC8_Simple S XOR b`; so it depends on `S` only through
`Compute_CRC8_Simple S`. -/
theorem C13_append_byte_is_one_lookup (S : List Nat) (b : Nat) (hb : b < 256) :
    (GenerateCRCTable generator)[Compute_CRC8_Simple S ^^^ b]?
      = some (Compute_CRC8_Simple (S ++ [b])) ∧
    ∀ S' : List Nat, Compute_CRC8_Simple S' = Compute_CRC8_Simple S →
      Compute_CRC8_Simple (S' ++ [b]) = Compute_CRC8_Simple (S ++ [b]) := by
  have step : ∀ L : List Nat, Compute_CRC8_Simple (L ++ [b])
      = msbByte generator ((Compute_CRC8_Simple L ^^^ b) % 256) := by
    intro L
    rw [Compute_CRC8_Simple_eq, Compute_CRC8_Simple_eq, List.foldl_append]
    rfl
  have hlt : Compute_CRC8_Simple S ^^^ b < 256 := by
    rw [Compute_CRC8_Simple_eq]
    exact @Nat.xor_lt_two_pow _ _ 8 (Simple_fold_lt S 0 (by decide)) hb
  constructor
  · rw [GenerateCRCTable_getElem? _ _ hlt, step]
  · intro S' h
    rw [step, step, h]

/-- Claim C13 at `S = [0x12, 0x34]`, `b = 0x56`. -/
theorem C13_append_byte_is_one_lookup_witness :
    0x56 < 256 ∧
    ((GenerateCRCTable generator)[Compute_CRC8_Simple [0x12, 0x34] ^^^ 0x56]?
      = some (Compute_CRC8_Simple ([0x12, 0x34] ++ [0x56])) ∧
    ∀ S' : List Nat, Compute_CRC8_Simple S' = Compute_CRC8_Simple [0x12, 0x34] →
      Compute_CRC8_Simple (S' ++ [0x56]) = Compute_CRC8_Simple ([0x12, 0x34] ++ [0x56])) :=
  ⟨by decide, C13_append_byte_is_one_lookup [0x12, 0x34] 0x56 (by decide)⟩

/-- Claim C14: the two tables are not interchangeable.  On the one-byte
sequence `[0x01]` the normal table engine fed the reflected table returns the
byte `0xD0`, not an error, while `Compute_CRC8_Simple [0x01]` is `0x9B`; so
some sequence gets a byte different from its checksum. -/
theorem C14_cross_used_table_gives_wrong_byte :
    Compute_CRC8_Table [0x01] (GenerateCRCTable_Reflected (Reflect8 generator)) = some 0xD0 ∧
    Compute_CRC8_Simple [0x01] = 0x9B ∧
    ∃ S v, Compute_CRC8_Table S (GenerateCRCTable_Reflected (Reflect8 generator)) = some v ∧
      v < 256 ∧ v ≠ Compute_CRC8_Simple S := by
  have e : Compute_CRC8_Simple [0x01] = 0x9B := by decide
  refine ⟨cross_table_value, e, [0x01], 0xD0, cross_table_value, by decide, ?_⟩
  rw [e]
  decide

/-- Claim C15: for every byte value `i` and every polynomial `P`, entry `i` of
`GenerateCRCTable_Reflected (Reflect8 P)` is the reflection of the entry of
`GenerateCRCTable P` at index `Reflect8 i`. -/
theorem C15_reflected_table_is_conjugate (P i : Nat) (hi : i < 256) :
    (GenerateCRCTable_Reflected (Reflect8 P))[i]?
      = ((GenerateCRCTable P)[Reflect8 i]?).map Reflect8 := by
  rw [GenerateCRCTable_Reflected_getElem? _ _ hi,
    GenerateCRCTable_getElem? _ _ (Reflect8_lt i), Option.map_some',
    Nat.mod_eq_of_lt hi, Nat.mod_eq_of_lt (Reflect8_lt i),
    ← lsbByte_Reflect8_poly P _ (Reflect8_lt i), Reflect8_Reflect8_byte i hi]

/-- Claim C15 at `P = 0x9B`, `i = 0x01`. -/
theorem C15_reflected_table_is_conjugate_witness :
    0x01 < 256 ∧
    (GenerateCRCTable_Reflected (Reflect8 0x9B))[0x01]?
      = ((GenerateCRCTable 0x9B)[Reflect8 0x01]?).map Reflect8 :=
  ⟨by decide, C15_reflected_table_is_conjugate 0x9B 0x01 (by decide)⟩

/-- Claim C16: two byte sequences of the same length that differ in exactly
one position have different checksums; and `GenerateCRCTable generator` is a
permutation of the values 0..255, its 256 entries pairwise distinct. -/
theorem C16_single_byte_corruption_detected :
    (∀ S T : List Nat, (∀ x ∈ S, x < 256) → (∀ x ∈ T, x < 256) → S.length = T.length →
      (∃ k, k < S.length ∧ S[k]? ≠ T[k]? ∧ ∀ j, j < S.length → j ≠ k → S[j]? = T[j]?) →
      Compute_CRC8_Simple S ≠ Compute_CRC8_Simple T) ∧
    (GenerateCRCTable generator).Perm (List.range 256) ∧
    (GenerateCRCTable generator).Nodup := by
  refine ⟨?_, GenerateCRCTable_perm, GenerateCRCTable_nodup⟩
  intro S T hS hT hlen ⟨k, hk, hdiff, hsame⟩
  have hkT : k < T.length := hlen ▸ hk
  obtain ⟨eS, eT⟩ := split_at_difference S T hlen k hk hsame
  rw [eS, eT]
  apply Simple_single_corruption _ _ _ _ (hS _ (List.getElem_mem _)) (hT _ (List.get_mem _ _ _))
  intro h
  apply hdiff
  rw [List.getElem?_eq_getElem hk, List.getElem?_eq_getElem hkT, h, List.get_eq_getElem]

/-- Claim C16 at `S = [1, 2, 3]`, `T = [1, 7, 3]`, which differ at position 1
only. -/
theorem C16_single_byte_corruption_detected_witness :
    (∀ x ∈ [1, 2, 3], x < 256) ∧ (∀ x ∈ [1, 7, 3], x < 256) ∧
    [1, 2, 3].length = [1, 7, 3].length ∧
    (∃ k, k < [1, 2, 3].length ∧ [1, 2, 3][k]? ≠ [1, 7, 3][k]? ∧
      ∀ j, j < [1, 2, 3].length → j ≠ k → [1, 2, 3][j]? = [1, 7, 3][j]?) ∧
    Compute_CRC8_Simple [1, 2, 3] ≠ Compute_CRC8_Simple [1, 7, 3] :=
  ⟨by decide, by decide, rfl, ⟨1, by decide, by decide, by decide⟩,
    C16_single_byte_corruption_detected.1 [1, 2, 3] [1, 7, 3] (by decide) (by decide) rfl
      ⟨1, by decide, by decide, by decide⟩⟩

/-- Claim C17: the checksum is linear over XOR: for two sequences `A` and `B`
of the same length, the checksum of their position-wise XOR is the XOR of
their checksums. -/
theorem C17_checksum_linear_over_xor (A B : List Nat) (hlen : A.length = B.length) :
    Compute_CRC8_Simple (List.zipWith (fun a b => a ^^^ b) A B)
      = Compute_CRC8_Simple A ^^^ Compute_CRC8_Simple B := by
  have h := Simple_fold_xor A B hlen 0 0
  rw [Nat.xor_self] at h
  exact h

/-- Claim C17 at `A = [0x12, 0x34, 0x56]`, `B = [0xFF, 0x00, 0x9B]`. -/
theorem C17_checksum_linear_over_xor_witness :
    [0x12, 0x34, 0x56].length = [0xFF, 0x00, 0x9B].length ∧
    Compute_CRC8_Simple (List.zipWith (fun a b => a ^^^ b) [0x12, 0x34, 0x56] [0xFF, 0x00, 0x9B])
      = Compute_CRC8_Simple [0x12, 0x34, 0x56] ^^^ Compute_CRC8_Simple [0xFF, 0x00, 0x9B] :=
  ⟨rfl, C17_checksum_linear_over_xor [0x12, 0x34, 0x56] [0xFF, 0x00, 0x9B] rfl⟩

/-- Claim C18: leading zero bytes do not change the checksum: for every list
`S` and every `k`, `k` zero bytes followed by `S` have the checksum of `S`; and
every all-zero sequence has checksum 0. -/
theorem C18_leading_zero_bytes_invisible (S : List Nat) (k : Nat) :
    Compute_CRC8_Simple (List.replicate k 0 ++ S) = Compute_CRC8_Simple S ∧
    Compute_CRC8_Simple (List.replicate k 0) = 0 := by
  constructor
  · rw [Compute_CRC8_Simple_eq, Compute_CRC8_Simple_eq, List.foldl_append, Simple_fold_zeros]
  · rw [Compute_CRC8_Simple_eq, Simple_fold_zeros]

end CRC8
